import Mathlib

/-!
Verification of the internal-linker similarity pipeline against its
natural-language specification.  Each section embeds one component of the
TypeScript source as Lean definitions and proves (or refutes) the claimed
properties about it.
-/

namespace InternalLinker

/-!
## TF-IDF engine: smoothed IDF
Embeds `precomputeIDF` from `src/src/workers/modules/vectorization.ts`
(lines 38-78) and `src/src/utils/tfidf.ts` (lines 150-165).  Both compute,
for every vocabulary term, `idf = Math.log((numDocs + 1) / (df + 1)) + 1`
where `df` is the number of documents containing the term (the `seenInDoc`
set makes each document count at most once per term).  JS numbers are
idealised as real numbers.
-/

/-- Document frequency of term `t`: the number of documents of `allDocs`
containing `t` at least once (the `docFrequencies` map built by
`precomputeIDF`). -/
def docFreq (allDocs : List (List String)) (t : String) : Nat :=
  allDocs.countP (fun d => decide (t ∈ d))

/-- Vocabulary membership: `uniqueTerms` collects every term occurring in
some document of the corpus. -/
def inVocab (allDocs : List (List String)) (t : String) : Bool :=
  allDocs.any (fun d => decide (t ∈ d))

/-- The smoothed IDF formula applied by `precomputeIDF`:
`Math.log((numDocs + 1) / (df + 1)) + 1`. -/
noncomputable def idfFormula (numDocs df : ℕ) : ℝ :=
  Real.log (((numDocs : ℝ) + 1) / ((df : ℝ) + 1)) + 1

/-- The IDF value `precomputeIDF allDocs` stores for a vocabulary term `t`
(the entry of `cachedIdfValues` / `idfCache`). -/
noncomputable def precomputedIdf (allDocs : List (List String)) (t : String) : ℝ :=
  idfFormula allDocs.length (docFreq allDocs t)

lemma docFreq_le_length (allDocs : List (List String)) (t : String) :
    docFreq allDocs t ≤ allDocs.length :=
  List.countP_le_length _

lemma docFreq_pos_of_inVocab (allDocs : List (List String)) (t : String)
    (h : inVocab allDocs t = true) : 1 ≤ docFreq allDocs t := by
  unfold inVocab at h
  unfold docFreq
  rcases List.any_eq_true.mp h with ⟨d, hd, hmem⟩
  have := List.countP_pos_iff (p := fun d => decide (t ∈ d)) (l := allDocs)
  exact this.mpr ⟨d, hd, hmem⟩

lemma idfFormula_pos (numDocs df : ℕ) (hdf : df ≤ numDocs) :
    0 < idfFormula numDocs df := by
  unfold idfFormula
  have hratio : (1 : ℝ) ≤ ((numDocs : ℝ) + 1) / ((df : ℝ) + 1) := by
    rw [le_div_iff₀ (by positivity)]
    have : (df : ℝ) ≤ (numDocs : ℝ) := by exact_mod_cast hdf
    linarith
  have hlog : 0 ≤ Real.log (((numDocs : ℝ) + 1) / ((df : ℝ) + 1)) :=
    Real.log_nonneg hratio
  linarith

lemma idfFormula_strict_anti (numDocs dfa dfb : ℕ) (h : dfa < dfb) :
    idfFormula numDocs dfb < idfFormula numDocs dfa := by
  unfold idfFormula
  have ha : (0 : ℝ) < (dfa : ℝ) + 1 := by positivity
  have hb : (0 : ℝ) < (dfb : ℝ) + 1 := by positivity
  have hn : (0 : ℝ) < (numDocs : ℝ) + 1 := by positivity
  have hab : (dfa : ℝ) + 1 < (dfb : ℝ) + 1 := by
    have : (dfa : ℝ) < (dfb : ℝ) := by exact_mod_cast h
    linarith
  have hdiv : ((numDocs : ℝ) + 1) / ((dfb : ℝ) + 1)
      < ((numDocs : ℝ) + 1) / ((dfa : ℝ) + 1) :=
    div_lt_div_of_pos_left hn ha hab
  have hposb : (0 : ℝ) < ((numDocs : ℝ) + 1) / ((dfb : ℝ) + 1) := by positivity
  have := Real.log_lt_log hposb hdiv
  linarith

/-!
## Inverted index
Embeds `InvertedIndex` from `src/src/utils/topicExtraction.ts`
(related document, lines 61-118).  The postings map `index` sends each
term to the set of document ids added for it; `index.get(term)` for an
absent term yields the empty set.
-/

/-- The postings map of an `InvertedIndex`: term to set of document ids. -/
def InvIndex : Type := String → Finset ℕ

/-- `addDocument(docId, terms)`: adds `docId` to the posting set of every
term of `terms` (the `terms.forEach` loop). -/
def addDocumentIdx (idx : InvIndex) (docId : ℕ) (terms : List String) : InvIndex :=
  fun t => if t ∈ terms then insert docId (idx t) else idx t

/-- An index built by a sequence of `addDocument` calls starting from the
empty (freshly constructed or cleared) index. -/
def buildIndex (docs : List (ℕ × List String)) : InvIndex :=
  docs.foldl (fun idx d => addDocumentIdx idx d.1 d.2) (fun _ => (∅ : Finset ℕ))

/-- `search(terms)`: maps each query term to its posting set, drops the
empty sets (`filter(set => set.size > 0)`), and intersects the remaining
sets; an empty query or an empty set list yields the empty result. -/
def searchIdx (idx : InvIndex) (terms : List String) : Finset ℕ :=
  if terms.length = 0 then ∅
  else
    match (terms.map idx).filter (fun s => decide (0 < s.card)) with
    | [] => ∅
    | s :: rest => rest.foldl (fun acc cur => acc ∩ cur) s

lemma mem_foldl_inter (d : ℕ) (s : Finset ℕ) (rest : List (Finset ℕ)) :
    d ∈ rest.foldl (fun acc cur => acc ∩ cur) s ↔ d ∈ s ∧ ∀ x ∈ rest, d ∈ x := by
  induction rest generalizing s with
  | nil => simp
  | cons y ys ih =>
      simp only [List.foldl_cons, ih, Finset.mem_inter, List.mem_cons]
      constructor
      · rintro ⟨⟨hs, hy⟩, hall⟩
        refine ⟨hs, fun x hx => ?_⟩
        rcases hx with rfl | hx
        · exact hy
        · exact hall x hx
      · rintro ⟨hs, hall⟩
        exact ⟨⟨hs, hall y (Or.inl rfl)⟩, fun x hx => hall x (Or.inr hx)⟩

/-- Characterisation of `search`: a document id is returned iff some query
term has a non-empty posting set and the id lies in the posting set of
every query term whose posting set is non-empty. -/
theorem searchIdx_mem (idx : InvIndex) (terms : List String) (d : ℕ) :
    d ∈ searchIdx idx terms ↔
      (∃ t ∈ terms, (idx t).Nonempty) ∧
        ∀ t ∈ terms, (idx t).Nonempty → d ∈ idx t := by
  unfold searchIdx
  rcases terms with _ | ⟨t0, ts⟩
  · simp
  · simp only [List.length_cons, Nat.succ_ne_zero, if_false]
    set l := ((t0 :: ts).map idx).filter (fun s => decide (0 < s.card)) with hl
    have hmem_l : ∀ s : Finset ℕ, s ∈ l ↔ ∃ t ∈ t0 :: ts, idx t = s ∧ s.Nonempty := by
      intro s
      simp only [hl, List.mem_filter, List.mem_map, decide_eq_true_eq,
        Finset.card_pos]
      constructor
      · rintro ⟨⟨t, ht, rfl⟩, hcard⟩
        exact ⟨t, ht, rfl, hcard⟩
      · rintro ⟨t, ht, rfl, hne⟩
        exact ⟨⟨t, ht, rfl⟩, hne⟩
    rcases hcase : l with _ | ⟨s, rest⟩
    · simp only [Finset.not_mem_empty, false_iff]
      rintro ⟨⟨t, ht, hne⟩, -⟩
      have : idx t ∈ l := (hmem_l (idx t)).mpr ⟨t, ht, rfl, hne⟩
      rw [hcase] at this
      exact absurd this (List.not_mem_nil _)
    · rw [mem_foldl_inter]
      have hall : (d ∈ s ∧ ∀ x ∈ rest, d ∈ x) ↔ ∀ x ∈ l, d ∈ x := by
        rw [hcase]
        simp only [List.mem_cons]
        constructor
        · rintro ⟨hs, hrest⟩ x hx
          rcases hx with rfl | hx
          · exact hs
          · exact hrest x hx
        · intro h
          exact ⟨h s (Or.inl rfl), fun x hx => h x (Or.inr hx)⟩
      rw [hall]
      have hex : ∃ t ∈ t0 :: ts, (idx t).Nonempty := by
        have : s ∈ l := by rw [hcase]; exact List.mem_cons_self _ _
        rcases (hmem_l s).mp this with ⟨t, ht, hst, hne⟩
        exact ⟨t, ht, by rw [hst]; exact hne⟩
      constructor
      · intro h
        refine ⟨hex, fun t ht hne => ?_⟩
        exact h (idx t) ((hmem_l (idx t)).mpr ⟨t, ht, rfl, hne⟩)
      · rintro ⟨-, h⟩ x hx
        rcases (hmem_l x).mp hx with ⟨t, ht, rfl, hne⟩
        exact h t ht hne

/-!
## Bloom filter
Embeds `BloomFilter` from `src/src/utils/bloomFilter.ts`.  `getHashValues`
runs, for each `i < numHashes`, the loop
`hash = Math.imul(hash, 31) + charCode; hash = hash >>> 0` starting from
`i + 1` and finishes with `Math.abs(hash % size)`; since `hash >>> 0`
keeps the value in `[0, 2^32)` the whole step is `(hash * 31 + c) mod 2^32`
and the final `Math.abs` is the identity.  The bit array is modelled as the
set of set bit positions: `add` and `test` address bit
`arrayIndex * 32 + bitIndex = hash`, the same position in both, so
bit-level packing of `Uint32Array` words is transparent.  The `hashCache`
memoises a deterministic function and does not alter results.
-/

/-- One step of the Bloom hash loop: `(hash * 31 + charCode) mod 2^32`. -/
def bloomHashStep (h c : ℕ) : ℕ := (h * 31 + c) % 4294967296

/-- The `i`-th hash index of a value (a list of char codes):
seed `i + 1`, folded over the codes, reduced `mod size`. -/
def bloomHash (size i : ℕ) (chars : List ℕ) : ℕ :=
  (chars.foldl bloomHashStep (i + 1)) % size

/-- `getHashValues(value)`: the `numHashes` hash indices of a value. -/
def bloomHashValues (numHashes size : ℕ) (chars : List ℕ) : List ℕ :=
  (List.range numHashes).map (fun i => bloomHash size i chars)

/-- The observable state of a `BloomFilter` instance: its configuration and
the set of bit positions currently set in `bits`. -/
structure BloomFilterState where
  numHashes : ℕ
  size : ℕ
  bits : ℕ → Bool

/-- A freshly constructed (or cleared) filter: all bits zero. -/
def BloomFilterState.empty (numHashes size : ℕ) : BloomFilterState :=
  ⟨numHashes, size, fun _ => false⟩

/-- `add(value)`: sets the bit at every hash index of the value. -/
def BloomFilterState.add (bf : BloomFilterState) (chars : List ℕ) : BloomFilterState :=
  { bf with
    bits := fun p => bf.bits p || decide (p ∈ bloomHashValues bf.numHashes bf.size chars) }

/-- `test(value)`: true iff the bit at every hash index of the value is set. -/
def BloomFilterState.test (bf : BloomFilterState) (chars : List ℕ) : Bool :=
  (bloomHashValues bf.numHashes bf.size chars).all bf.bits

/-- The filter obtained by a sequence of `add` calls. -/
def BloomFilterState.addAll (bf : BloomFilterState) (vs : List (List ℕ)) : BloomFilterState :=
  vs.foldl BloomFilterState.add bf

lemma BloomFilterState.add_numHashes (bf : BloomFilterState) (v : List ℕ) :
    (bf.add v).numHashes = bf.numHashes := rfl

lemma BloomFilterState.add_size (bf : BloomFilterState) (v : List ℕ) :
    (bf.add v).size = bf.size := rfl

lemma BloomFilterState.addAll_numHashes (bf : BloomFilterState) (vs : List (List ℕ)) :
    (bf.addAll vs).numHashes = bf.numHashes := by
  induction vs generalizing bf with
  | nil => rfl
  | cons v vs ih => exact ih (bf.add v)

lemma BloomFilterState.addAll_size (bf : BloomFilterState) (vs : List (List ℕ)) :
    (bf.addAll vs).size = bf.size := by
  induction vs generalizing bf with
  | nil => rfl
  | cons v vs ih => exact ih (bf.add v)

lemma BloomFilterState.bits_mono_add (bf : BloomFilterState) (v : List ℕ) (p : ℕ)
    (h : bf.bits p = true) : (bf.add v).bits p = true := by
  simp only [BloomFilterState.add, h, Bool.true_or]

lemma BloomFilterState.bits_mono_addAll (bf : BloomFilterState) (vs : List (List ℕ)) (p : ℕ)
    (h : bf.bits p = true) : (bf.addAll vs).bits p = true := by
  induction vs generalizing bf with
  | nil => exact h
  | cons v vs ih => exact ih (bf.add v) (bf.bits_mono_add v p h)

lemma BloomFilterState.test_add_self (bf : BloomFilterState) (v : List ℕ) :
    (bf.add v).test v = true := by
  simp only [BloomFilterState.test, List.all_eq_true]
  intro p hp
  simp only [BloomFilterState.add, BloomFilterState.add_numHashes,
    BloomFilterState.add_size] at hp ⊢
  simp [hp]

lemma BloomFilterState.test_mono (bf bf' : BloomFilterState)
    (hn : bf'.numHashes = bf.numHashes) (hs : bf'.size = bf.size)
    (hb : ∀ p, bf.bits p = true → bf'.bits p = true) (v : List ℕ)
    (h : bf.test v = true) : bf'.test v = true := by
  simp only [BloomFilterState.test, List.all_eq_true, hn, hs] at h ⊢
  intro p hp
  exact hb p (h p hp)

/-!
## MinHash signatures
Embeds `MinHash.addDocument` from `src/src/utils/minHash.ts` (lines 64-109,
CPU path) and the duplicate variant in `src/src/utils/workerPool.ts`
related documents (lines 345-374).  The signature is a `Uint32Array`;
`signature.fill(Infinity)` stores `ToUint32(+Infinity) = 0` into every slot
(ECMA-262 integer conversion), which `uint32OfInfinity` records.  Seeds are
`Math.abs((31 * (i + 1)) % Number.MAX_SAFE_INTEGER) = 31 * (i + 1)`.  Each
term hash runs `hash = (hash * 31 + charCode) % prime` over the term's char
codes and ends with `hash >>> 0`, i.e. reduction `mod 2^32`. -/

/-- `this.prime`, the first prime larger than `2^32`. -/
def minHashPrime : ℕ := 4294967311

/-- The value `Uint32Array.fill(Infinity)` actually stores:
`ToUint32(+Infinity) = 0`. -/
def uint32OfInfinity : ℕ := 0

/-- `hashSeeds[i] = Math.abs((31 * (i + 1)) % Number.MAX_SAFE_INTEGER)`. -/
def minHashSeed (i : ℕ) : ℕ := 31 * (i + 1)

/-- The hash of one term (list of char codes) under seed `seed`:
the `(hash * 31 + charCode) % prime` loop followed by `>>> 0`. -/
def minHashTermHash (seed : ℕ) (chars : List ℕ) : ℕ :=
  (chars.foldl (fun h c => (h * 31 + c) % minHashPrime) seed) % 4294967296

/-- The `numHashes` hash values of one term. -/
def minHashHashes (numHashes : ℕ) (chars : List ℕ) : List ℕ :=
  (List.range numHashes).map (fun i => minHashTermHash (minHashSeed i) chars)

/-- The signature `addDocument` computes and stores: start from the
`fill(Infinity)` array and take the elementwise `Math.min` with each
term's hash values. -/
def minHashSignature (numHashes : ℕ) (terms : List (List ℕ)) : List ℕ :=
  terms.foldl (fun sig t => List.zipWith min sig (minHashHashes numHashes t))
    (List.replicate numHashes uint32OfInfinity)

/-- The signature the specification describes: at position `i`, the least
value of hash function `i` over the document's terms (for a non-empty term
set). -/
def minHashSpecSignature (numHashes : ℕ) (terms : List (List ℕ)) : List ℕ :=
  (List.range numHashes).map
    (fun i => ((terms.map (minHashTermHash (minHashSeed i))).foldr min 4294967296))

/-!
## Corpus fingerprint
Embeds `checkCorpusChanged` and the `cachedAllDocsHash` update from
`src/src/workers/modules/vectorization.ts` (lines 76, 176-179): the
fingerprint string is
`String(allDocs.length) + '|' + (allDocs[0]?.length || 0)`, and the check
reports a change iff the current fingerprint differs from the cached one
(a `null` cache always reports a change).
-/

/-- The fingerprint string of a corpus: document count and length of the
first document, joined by a bar. -/
def corpusFingerprint (allDocs : List (List String)) : String :=
  toString allDocs.length ++ "|" ++
    toString ((allDocs.head?.map List.length).getD 0)

/-- `checkCorpusChanged(allDocs)` against a cached fingerprint
(`cachedAllDocsHash`, `none` when never set). -/
def checkCorpusChanged (allDocs : List (List String)) (cached : Option String) : Bool :=
  match cached with
  | none => true
  | some h => decide (corpusFingerprint allDocs ≠ h)

/-!
## Worker pool cancellation
Embeds `WorkerPool.cancelAllTasks` from `src/src/utils/workerPool.ts`
(lines 156-181).  Pool state: `taskQueue` holds the ids of queued tasks
whose promise callbacks live only in the queue entries; `taskPromises`
holds the ids of dispatched, unresolved tasks (callbacks are stored there
by `processQueue` at dispatch and deleted on resolution).  `futures`
records the settlement state of every task's Promise; JS `reject` settles
a promise only if it is still pending, which `rejectWithCancel` mirrors.
`cancelAllTasks` clears the queue, rejects exactly the promises tracked in
`taskPromises`, clears that map, and marks every worker idle.
-/

/-- Settlement state of a task's Promise. -/
inductive FutureState
  | unsettled
  | resolved
  | rejectedCancelled
  | rejectedError
deriving DecidableEq, Repr

/-- One worker slot: busy flag and currently assigned task id. -/
structure WorkerInfo where
  isBusy : Bool
  taskId : Option ℕ
deriving DecidableEq, Repr

/-- The bookkeeping state of a `WorkerPool`. -/
structure PoolState where
  taskQueue : List ℕ
  taskPromises : List ℕ
  workers : List WorkerInfo
  futures : ℕ → FutureState

/-- `reject(new Error("Task cancelled by user."))` on task `id`: settles
the promise with the cancellation error if it is still pending, otherwise
leaves it alone. -/
def rejectWithCancel (f : ℕ → FutureState) (id : ℕ) : ℕ → FutureState :=
  fun j =>
    if j = id then
      if f id = FutureState.unsettled then FutureState.rejectedCancelled else f id
    else f j

/-- `cancelAllTasks()`: `taskQueue = []`, reject every promise tracked in
`taskPromises` then clear it, and set every worker to
`isBusy = false, taskId = null`. -/
def cancelAllTasks (s : PoolState) : PoolState :=
  { taskQueue := []
    taskPromises := []
    workers := s.workers.map (fun _ => ⟨false, none⟩)
    futures := s.taskPromises.foldl rejectWithCancel s.futures }

lemma rejectWithCancel_other (f : ℕ → FutureState) (id j : ℕ) (h : j ≠ id) :
    rejectWithCancel f id j = f j := by
  simp [rejectWithCancel, h]

lemma foldl_rejectWithCancel_not_mem (l : List ℕ) (f : ℕ → FutureState) (j : ℕ)
    (h : j ∉ l) : l.foldl rejectWithCancel f j = f j := by
  induction l generalizing f with
  | nil => rfl
  | cons i is ih =>
      have hj : j ≠ i := fun hji => h (hji ▸ List.mem_cons_self i is)
      have hrest : j ∉ is := fun hmem => h (List.mem_cons_of_mem i hmem)
      rw [List.foldl_cons, ih _ hrest, rejectWithCancel_other _ _ _ hj]

lemma foldl_rejectWithCancel_preserves (l : List ℕ) (f : ℕ → FutureState) (j : ℕ)
    (h : f j = FutureState.rejectedCancelled) :
    l.foldl rejectWithCancel f j = FutureState.rejectedCancelled := by
  induction l generalizing f with
  | nil => exact h
  | cons i is ih =>
      rw [List.foldl_cons]
      apply ih
      by_cases hji : j = i
      · subst hji
        simp [rejectWithCancel, h]
      · rw [rejectWithCancel_other _ _ _ hji]; exact h

lemma foldl_rejectWithCancel_mem (l : List ℕ) (f : ℕ → FutureState) (j : ℕ)
    (hmem : j ∈ l) (h : f j = FutureState.unsettled) :
    l.foldl rejectWithCancel f j = FutureState.rejectedCancelled := by
  induction l generalizing f with
  | nil => exact absurd hmem (List.not_mem_nil j)
  | cons i is ih =>
      rw [List.foldl_cons]
      by_cases hji : j = i
      · subst hji
        apply foldl_rejectWithCancel_preserves
        simp [rejectWithCancel, h]
      · have hrest : j ∈ is := by
          rcases List.mem_cons.mp hmem with heq | hmem'
          · exact absurd heq hji
          · exact hmem'
        exact ih _ hrest (by rw [rejectWithCancel_other _ _ _ hji]; exact h)

/-!
## Similarity worker: match filtering and the mark-processed branch
Embeds `processCandidates` from
`src/src/workers/modules/candidateProcessor.ts` (a match record is pushed
exactly for the candidates whose cosine similarity is `>= 0.05`) and the
`validMatches` branch of `self.onmessage` in
`src/src/workers/similarity.worker.ts` (lines 117-141 and 287-317):
`validMatches = results.filter(nonNull).sort(desc).slice(0, 5)` and
`markSourceUrlProcessed` is awaited iff `validMatches.length > 0`.
Cosine similarity values enter as inputs (rationals model the JS numbers);
the `suggestedAnchor` string derived from the texts plays no role in the
branch and is omitted from the records.
-/

/-- `SIMILARITY_THRESHOLD = 0.05`. -/
def similarityThreshold : ℚ := 5 / 100

/-- One candidate as seen by `processCandidates`: target metadata plus the
cosine similarity of its vector with the source vector. -/
structure CandidateInput where
  url : String
  title : String
  similarity : ℚ

/-- A match record pushed by `processCandidates`. -/
structure SimilarityMatch where
  url : String
  title : String
  similarity : ℚ
deriving DecidableEq

/-- The `results` list of `processCandidates`: one match per candidate
whose similarity reaches the threshold. -/
def processCandidatesResults (cands : List CandidateInput) : List SimilarityMatch :=
  cands.filterMap (fun c =>
    if similarityThreshold ≤ c.similarity then
      some ⟨c.url, c.title, c.similarity⟩
    else none)

/-- `validMatches`: the non-null results (the model list holds no nulls)
sorted by descending similarity and truncated to the top five. -/
def validMatchesOf (results : List SimilarityMatch) : List SimilarityMatch :=
  (List.insertionSort (fun a b => b.similarity ≤ a.similarity) results).take 5

/-- The branch condition of `self.onmessage`: `validMatches.length > 0`,
which is exactly when `markSourceUrlProcessed` is called. -/
def shouldMarkProcessed (results : List SimilarityMatch) : Bool :=
  decide (0 < (validMatchesOf results).length)

/-!
## Tokenizer
Embeds `preprocessText` from `src/src/workers/modules/preprocessing.ts`
(lines 12-18):
`text.toLowerCase().replace(/[^\p{L}\s]/gu, '').split(/\s+/)
  .filter(word => word.length > 1 && !stopWords[lang].has(word))`.
Text is a list of chars; `letter` models the Unicode `\p{L}` class and the
stop-word set of the detected language enters as the predicate `stop`
(the language detector is a pluggable collaborator; its implementation
module `utils/languageDetection` is not part of the sources).  `split` is
modelled as the maximal runs of non-whitespace characters; the empty
fragments JS `split(/\s+/)` can yield at the string's edges are removed by
the `length > 1` filter in both the source and the model.
-/

/-- Splits a char list into maximal runs of non-whitespace characters,
accumulating the current run in reverse. -/
def splitWSAux : List Char → List Char → List (List Char)
  | [], acc => if acc.isEmpty then [] else [acc.reverse]
  | c :: cs, acc =>
      if c.isWhitespace then
        if acc.isEmpty then splitWSAux cs [] else acc.reverse :: splitWSAux cs []
      else splitWSAux cs (c :: acc)

/-- `split(/\s+/)` up to empty fragments. -/
def splitWS (cs : List Char) : List (List Char) := splitWSAux cs []

/-- `preprocessText`: lower-case, strip characters that are neither a
letter nor whitespace, split on whitespace, keep words of length `> 1`
that are not stop words. -/
def preprocessTextModel (letter : Char → Bool) (stop : List Char → Bool)
    (text : List Char) : List (List Char) :=
  ((splitWS ((text.map Char.toLower).filter (fun c => letter c || c.isWhitespace))).filter
    (fun w => decide (1 < w.length) && !stop w))

/-- The English stop-word set of `src/src/utils/stopwords.ts` (the
detector's fallback language). -/
def engStopWords : List String :=
  ["a", "an", "and", "are", "as", "at", "be", "by", "for", "from", "has", "he",
   "in", "is", "it", "its", "of", "on", "that", "the", "to", "was", "were",
   "will", "with", "the", "this", "but", "they", "have", "had", "what", "when",
   "where", "who", "which", "why", "how", "all", "any", "both", "each", "few",
   "more", "most", "other", "some", "such", "no", "nor", "not", "only", "own",
   "same", "so", "than", "too", "very", "can", "just", "should", "now", "i",
   "you", "your", "we", "my", "me", "her", "his", "their", "our", "us", "am",
   "been", "being", "do", "does", "did", "doing", "would", "could", "might",
   "must", "shall", "into", "if", "then", "else", "out", "about", "over",
   "again", "once", "under", "further", "before", "after", "above", "below",
   "up", "down", "in", "out", "on", "off", "through", "while", "during"]

/-- Membership test in the English stop-word set. -/
def engStop (w : List Char) : Bool := engStopWords.contains (String.mk w)

/-!
## In-place sorting of term arrays
`calculateTFIDF` in `src/src/utils/tfidf.ts` (line 186) computes its cache
key with `doc.sort().join('|')`, and `generateCorpusHash` (lines 52-60)
computes `allDocs.map(doc => doc.sort().join('|'))`.  JS
`Array.prototype.sort` sorts the array IN PLACE (default comparator:
lexicographic string comparison), so after either call the caller's term
array holds its elements in sorted order.
-/

/-- The default JS sort comparator's strict order on strings:
lexicographic comparison of the code units. -/
def jsStrLt : List Char → List Char → Bool
  | [], [] => false
  | [], _ :: _ => true
  | _ :: _, [] => false
  | a :: as, b :: bs =>
      if a.val < b.val then true
      else if b.val < a.val then false
      else jsStrLt as bs

/-- JS `Array.prototype.sort()` on an array of strings: the array's
contents after the call (sorted ascending by the default lexicographic
comparator). -/
def jsSortStrings (l : List String) : List String :=
  List.insertionSort (fun a b => jsStrLt b.data a.data = false) l

/-- Contents of the `doc` argument after `calculateTFIDF(doc, ...)` has
evaluated `doc.sort().join('|')`. -/
def calculateTFIDFDocAfter (doc : List String) : List String := jsSortStrings doc

/-- Contents of one inner document array after `generateCorpusHash` has
evaluated `doc.sort().join('|')` on it. -/
def generateCorpusHashDocAfter (doc : List String) : List String := jsSortStrings doc

/-!
## Supporting lemmas for the MinHash signature
-/

lemma minHashHashes_length (numHashes : ℕ) (chars : List ℕ) :
    (minHashHashes numHashes chars).length = numHashes := by
  simp [minHashHashes]

lemma zipWith_min_replicate_zero (n : ℕ) (l : List ℕ) (h : l.length = n) :
    List.zipWith min (List.replicate n 0) l = List.replicate n 0 := by
  induction l generalizing n with
  | nil => subst h; rfl
  | cons x xs ih =>
      cases n with
      | zero => simp at h
      | succ m =>
          simp only [List.replicate_succ, List.zipWith_cons_cons, Nat.zero_min]
          refine congrArg (List.cons 0) (ih m ?_)
          simpa using h

lemma minHashSignature_eq_zero (numHashes : ℕ) (terms : List (List ℕ)) :
    minHashSignature numHashes terms = List.replicate numHashes 0 := by
  unfold minHashSignature uint32OfInfinity
  induction terms with
  | nil => rfl
  | cons t ts ih =>
      rw [List.foldl_cons,
        zipWith_min_replicate_zero numHashes _ (minHashHashes_length numHashes t)]
      exact ih

/-!
## Claim theorems
-/

/-- C1: the signature stored by `MinHash.addDocument` is NOT the
elementwise minimum of the hash values over the term set.  Because
`signature.fill(Infinity)` writes `ToUint32(Infinity) = 0` into the
`Uint32Array`, every stored signature is identically zero: for the
document with single term "ab" (char codes 97, 98) and one hash function,
the stored signature is `[0]` while the least (and only) hash value of
hash function 0 over the terms is `32896`. -/
theorem C1_signature_zeroed :
    minHashSignature 1 [[97, 98]] = [0]
    ∧ minHashSpecSignature 1 [[97, 98]] = [32896]
    ∧ (0 : ℕ) ≠ 32896 := by
  refine ⟨minHashSignature_eq_zero 1 [[97, 98]], by decide, by decide⟩

/-- C2: for every corpus and all vocabulary terms `a`, `b`, the smoothed
IDF of `a` equals `ln((N+1)/(df(a)+1)) + 1`, both IDF values are strictly
positive, and `df(a) < df(b)` implies `idf(b) < idf(a)` (IDF is strictly
decreasing in document frequency). -/
theorem C2_idf_smoothed_positive_antitone (allDocs : List (List String))
    (a b : String) (_ha : inVocab allDocs a = true) (_hb : inVocab allDocs b = true)
    (hab : docFreq allDocs a < docFreq allDocs b) :
    precomputedIdf allDocs a
        = Real.log (((allDocs.length : ℝ) + 1) / ((docFreq allDocs a : ℝ) + 1)) + 1
    ∧ 0 < precomputedIdf allDocs a
    ∧ 0 < precomputedIdf allDocs b
    ∧ precomputedIdf allDocs b < precomputedIdf allDocs a := by
  refine ⟨rfl, ?_, ?_, ?_⟩
  · exact idfFormula_pos _ _ (docFreq_le_length allDocs a)
  · exact idfFormula_pos _ _ (docFreq_le_length allDocs b)
  · exact idfFormula_strict_anti _ _ _ hab

/-- Witness for C2 on the two-document corpus `[["x"], ["x", "y"]]`:
`df("y") = 1 < 2 = df("x")`, both IDF values positive and
`idf("x") < idf("y")`. -/
theorem C2_idf_witness :
    0 < precomputedIdf [["x"], ["x", "y"]] "y"
    ∧ 0 < precomputedIdf [["x"], ["x", "y"]] "x"
    ∧ precomputedIdf [["x"], ["x", "y"]] "x"
        < precomputedIdf [["x"], ["x", "y"]] "y" :=
  ⟨(C2_idf_smoothed_positive_antitone [["x"], ["x", "y"]] "y" "x"
      (by decide) (by decide) (by decide)).2.1,
   (C2_idf_smoothed_positive_antitone [["x"], ["x", "y"]] "y" "x"
      (by decide) (by decide) (by decide)).2.2.1,
   (C2_idf_smoothed_positive_antitone [["x"], ["x", "y"]] "y" "x"
      (by decide) (by decide) (by decide)).2.2.2⟩

lemma BloomFilterState.test_addAll_of_test (bf : BloomFilterState)
    (ws : List (List ℕ)) (v : List ℕ) (h : bf.test v = true) :
    (bf.addAll ws).test v = true :=
  BloomFilterState.test_mono bf (bf.addAll ws)
    (bf.addAll_numHashes ws) (bf.addAll_size ws)
    (fun p hp => bf.bits_mono_addAll ws p hp) v h

/-- C3: a Bloom filter has no false negatives: after any sequence of `add`
calls (no intervening `clear`), `test` returns `true` for every value that
was added. -/
theorem C3_bloom_no_false_negatives (bf : BloomFilterState) (vs : List (List ℕ))
    (v : List ℕ) (hv : v ∈ vs) : (bf.addAll vs).test v = true := by
  induction vs generalizing bf with
  | nil => exact absurd hv (List.not_mem_nil v)
  | cons w ws ih =>
      rcases List.mem_cons.mp hv with rfl | hv'
      · exact (bf.add v).test_addAll_of_test ws v (bf.test_add_self v)
      · exact ih (bf.add w) hv'

/-- Witness for C3: adding the values "ab" and "c" (as char-code lists) to
an empty filter, "ab" then tests positive. -/
theorem C3_bloom_witness :
    ((BloomFilterState.empty 3 100).addAll [[97, 98], [99]]).test [97, 98] = true :=
  C3_bloom_no_false_negatives (BloomFilterState.empty 3 100)
    [[97, 98], [99]] [97, 98] (by decide)

/-- C4 counterexample: index the single document 0 with terms `["a"]`;
the query `["a", "b"]` returns a set containing 0 although the query term
"b" occurs in no document at all, so `search` does not implement AND
semantics over all query terms. -/
theorem C4_counterexample :
    0 ∈ searchIdx (buildIndex [(0, ["a"])]) ["a", "b"]
    ∧ ("b" ∉ (["a"] : List String)) := by
  constructor
  · decide
  · decide

/-- C4 (amended): `search(queryTerms)` returns the intersection of the
posting lists of those query terms whose posting list is non-empty; query
terms indexed in no document are ignored, and the result is empty iff no
query term has a non-empty posting list (in particular for the empty
query). -/
theorem C4_search_lenient_and (idx : InvIndex) (terms : List String) (d : ℕ) :
    d ∈ searchIdx idx terms ↔
      (∃ t ∈ terms, (idx t).Nonempty) ∧
        ∀ t ∈ terms, (idx t).Nonempty → d ∈ idx t :=
  searchIdx_mem idx terms d

/-- C5 counterexample: in a pool whose queue holds the not-yet-dispatched
task 7 (its promise callbacks live only in the queue entry, so
`taskPromises` is empty), `cancelAllTasks` empties the queue but leaves
task 7's Future unsettled — it is never rejected with a cancellation
error. -/
theorem C5_counterexample :
    (cancelAllTasks
        ⟨[7], [], [⟨true, some 3⟩], fun _ => FutureState.unsettled⟩).futures 7
      = FutureState.unsettled
    ∧ FutureState.unsettled ≠ FutureState.rejectedCancelled := by
  exact ⟨rfl, by decide⟩

/-- C5 (amended): after `cancelAllTasks` the pending queue is empty, every
worker slot is idle, the Future of every dispatched, unresolved (tracked)
task is rejected with the cancellation error, and the Futures of all other
tasks — in particular the tasks that were still waiting in the pending
queue — are left exactly as they were, i.e. a queued task's Future is
dropped without being settled. -/
theorem C5_cancel_all_tasks (s : PoolState)
    (hprom : ∀ id ∈ s.taskPromises, s.futures id = FutureState.unsettled) :
    (cancelAllTasks s).taskQueue = []
    ∧ (∀ w ∈ (cancelAllTasks s).workers, w.isBusy = false)
    ∧ (∀ id ∈ s.taskPromises,
        (cancelAllTasks s).futures id = FutureState.rejectedCancelled)
    ∧ (∀ id, id ∉ s.taskPromises → (cancelAllTasks s).futures id = s.futures id) := by
  refine ⟨rfl, ?_, ?_, ?_⟩
  · intro w hw
    simp only [cancelAllTasks, List.mem_map] at hw
    rcases hw with ⟨_, _, rfl⟩
    rfl
  · intro id hid
    exact foldl_rejectWithCancel_mem _ _ _ hid (hprom id hid)
  · intro id hid
    exact foldl_rejectWithCancel_not_mem _ _ _ hid

/-- A concrete pool state: task 7 queued, task 1 dispatched to the single
busy worker, both Futures pending. -/
def poolStateExample : PoolState :=
  ⟨[7], [1], [⟨true, some 1⟩], fun _ => FutureState.unsettled⟩

/-- Witness for the amended C5 at `poolStateExample`. -/
theorem C5_cancel_witness :
    (cancelAllTasks poolStateExample).taskQueue = []
    ∧ (∀ w ∈ (cancelAllTasks poolStateExample).workers, w.isBusy = false)
    ∧ (∀ id ∈ poolStateExample.taskPromises,
        (cancelAllTasks poolStateExample).futures id = FutureState.rejectedCancelled)
    ∧ (∀ id, id ∉ poolStateExample.taskPromises →
        (cancelAllTasks poolStateExample).futures id = poolStateExample.futures id) :=
  C5_cancel_all_tasks poolStateExample (by decide)

lemma processCandidatesResults_length_pos (cands : List CandidateInput) :
    0 < (processCandidatesResults cands).length
      ↔ ∃ c ∈ cands, similarityThreshold ≤ c.similarity := by
  induction cands with
  | nil => simp [processCandidatesResults]
  | cons c cs ih =>
      simp only [processCandidatesResults, List.filterMap_cons] at ih ⊢
      by_cases h : similarityThreshold ≤ c.similarity
      · simp [h]
      · simpa [h] using ih

/-- C6: `markSourceUrlProcessed` is called iff the similarity task produced
at least one match reaching the threshold: the branch condition
`validMatches.length > 0` holds iff some candidate's similarity is
`>= SIMILARITY_THRESHOLD`; an empty match list leaves the source
unmarked. -/
theorem C6_mark_processed_iff_match (cands : List CandidateInput) :
    shouldMarkProcessed (processCandidatesResults cands) = true
      ↔ ∃ c ∈ cands, similarityThreshold ≤ c.similarity := by
  rw [← processCandidatesResults_length_pos]
  unfold shouldMarkProcessed validMatchesOf
  rw [decide_eq_true_iff, List.length_take, List.length_insertionSort]
  omega

/-- C7 counterexample: the corpora `[["a"]]` and `[["b"]]` have different
document contents but identical fingerprints, so `checkCorpusChanged`
reports no change and a cached Vocabulary/IDF table is silently reused
across different corpora. -/
theorem C7_counterexample :
    corpusFingerprint [["a"]] = corpusFingerprint [["b"]]
    ∧ ([["a"]] : List (List String)) ≠ [["b"]]
    ∧ checkCorpusChanged [["b"]] (some (corpusFingerprint [["a"]])) = false := by
  refine ⟨rfl, by decide, by decide⟩

/-- C7 (amended): the corpus fingerprint depends only on the number of
documents and the length of the first document; two corpora agreeing on
those two numbers always receive equal fingerprints and
`checkCorpusChanged` reports no change between them regardless of their
contents. -/
theorem C7_fingerprint_shape_only (docs1 docs2 : List (List String))
    (hlen : docs1.length = docs2.length)
    (hhead : (docs1.head?.map List.length).getD 0
        = (docs2.head?.map List.length).getD 0) :
    corpusFingerprint docs1 = corpusFingerprint docs2
    ∧ checkCorpusChanged docs2 (some (corpusFingerprint docs1)) = false := by
  have heq : corpusFingerprint docs1 = corpusFingerprint docs2 := by
    unfold corpusFingerprint
    rw [hlen, hhead]
  refine ⟨heq, ?_⟩
  simp [checkCorpusChanged, heq]

/-- Witness for the amended C7 at the corpora `[["a"]]`, `[["b"]]`. -/
theorem C7_fingerprint_witness :
    corpusFingerprint [["a"]] = corpusFingerprint [["b"]]
    ∧ checkCorpusChanged [["b"]] (some (corpusFingerprint [["a"]])) = false :=
  C7_fingerprint_shape_only [["a"]] [["b"]] rfl rfl

/-- C8 counterexample: on the input text "zq " followed by 51 letters 'z'
(with the English stop-word set of the fallback language), the tokenizer
outputs a token of length 2 (shorter than 3) and a token of length 51
(longer than 50). -/
theorem C8_counterexample :
    (preprocessTextModel Char.isAlpha engStop
        ("zq ".toList ++ List.replicate 51 'z')).map List.length = [2, 51]
    ∧ 2 < 3 ∧ 50 < 51 := by
  refine ⟨by decide, by decide, by decide⟩

/-- C8 (amended): for every input text (every letter class and stop-word
set), the tokenizer's output contains no token shorter than 2 characters —
the source filters `word.length > 1`; it imposes no upper length bound. -/
theorem C8_min_token_length (letter : Char → Bool) (stop : List Char → Bool)
    (text : List Char) (w : List Char)
    (hw : w ∈ preprocessTextModel letter stop text) : 2 ≤ w.length := by
  unfold preprocessTextModel at hw
  have hcond := (List.mem_filter.mp hw).2
  have hlen := ((Bool.and_eq_true _ _).mp hcond).1
  rw [decide_eq_true_iff] at hlen
  omega

/-- Witness for the amended C8: the token "zq" of the tokenized text "zq"
has length at least 2. -/
theorem C8_min_token_length_witness :
    2 ≤ (['z', 'q'] : List Char).length :=
  C8_min_token_length Char.isAlpha engStop "zq".toList ['z', 'q'] (by decide)

/-- C9: `calculateTFIDF` and `generateCorpusHash` mutate the term array
passed to them: `doc.sort()` sorts the caller's array in place, so after
the call the array `["b", "a"]` holds `["a", "b"]` — the same elements in
a different order, contradicting the immutability of `terms`. -/
theorem C9_sort_mutates :
    calculateTFIDFDocAfter ["b", "a"] = ["a", "b"]
    ∧ generateCorpusHashDocAfter ["b", "a"] = ["a", "b"]
    ∧ (["a", "b"] : List String) ≠ ["b", "a"] := by
  refine ⟨by decide, by decide, by decide⟩

/-- C10: a query none of whose terms occurs in any indexed document —
including the empty query — returns the empty result, never the set of all
documents. -/
theorem C10_search_all_unknown_empty (idx : InvIndex) (terms : List String)
    (h : ∀ t ∈ terms, idx t = ∅) : searchIdx idx terms = ∅ := by
  apply Finset.eq_empty_iff_forall_not_mem.mpr
  intro d hd
  rcases (searchIdx_mem idx terms d).mp hd with ⟨⟨t, ht, hne⟩, -⟩
  rw [h t ht] at hne
  exact Finset.not_nonempty_empty hne

/-- Witness for C10: on the index of the single document 0 = ["a"], the
query ["b"] (whose only term occurs nowhere) returns the empty set. -/
theorem C10_search_witness :
    searchIdx (buildIndex [(0, ["a"])]) ["b"] = ∅ :=
  C10_search_all_unknown_empty (buildIndex [(0, ["a"])]) ["b"] (by decide)

end InternalLinker
